import Mathlib

/-!
# Verification of the SILOAM real-time voice pipeline

A shallow embedding, in Lean 4, of the audio pipeline of this repository:

* the energy-based voice-activity detector (VAD) with adaptive noise floor and
  barge-in hysteresis (`src/SILOAM/src/app/voiceAgent/page.tsx`, `vadLoop`);
* the duplex upload gate driven by `tts_start` / `tts_end` control messages
  (`page.tsx`, `connectWS` handler and `rec.ondataavailable`);
* the jitter-buffered playback scheduler with lookahead / catch-up clock
  (`src/SILOAM/components/AudioStreamer.tsx`, `schedulePcmChunk`);
* the linear-interpolation resampler and 20 ms framer of the
  `PcmDownsampler` audio worklet, and the backpressure drop policy of its
  uplink (`src/unnamed/part_001`).

JavaScript numbers are modelled as exact rationals (`ℚ`); byte buffers as
`List ℕ`; `Int16` samples as `ℤ`.  All definitions are executable.
-/

namespace VoiceAgent

/-! ## VAD constants, from `page.tsx` lines 33-37 and 69 -/

/-- Constant `VAD_HOLD_MS = 200`: sustained speech (ms) needed to barge in. -/
def VAD_HOLD_MS : ℚ := 200

/-- Constant `VAD_SPEECH_FACTOR = 2.5`: `rms >= noiseFloor * factor` counts as speech. -/
def VAD_SPEECH_FACTOR : ℚ := 5 / 2

/-- Constant `VAD_DECAY = 0.98`: per-tick noise-floor decay. -/
def VAD_DECAY : ℚ := 49 / 50

/-- Constant `VAD_RISE = 0.25`: blend weight pulling the floor toward quiet frames. -/
def VAD_RISE : ℚ := 1 / 4

/-- Milliseconds accounted per `vadLoop` tick: the code adds `1000 / 60`
(one `requestAnimationFrame` tick, "~16.7ms/frame"). -/
def vadFrameMs : ℚ := 1000 / 60

/-- The mutable refs read and written by one `vadLoop` tick:
`noiseFloorRef`, `speakingMsRef`, `bargeSentRef`, `ttsPlayingRef`. -/
structure VadState where
  noiseFloor : ℚ
  speakingMs : ℚ
  bargeSent : Bool
  ttsPlaying : Bool
deriving DecidableEq

/-- Adaptive noise-floor update of `vadLoop` (`page.tsx` lines 366-370):
`floor := max(1, floor * VAD_DECAY)`, then, only when `rms < floor`,
`floor := floor * (1 - VAD_RISE) + rms * VAD_RISE`. -/
def updateFloor (floor rms : ℚ) : ℚ :=
  if rms < max 1 (floor * VAD_DECAY) then
    max 1 (floor * VAD_DECAY) * (1 - VAD_RISE) + rms * VAD_RISE
  else
    max 1 (floor * VAD_DECAY)

/-- Speech classification of `vadLoop` (line 372):
`speech = rms >= noiseFloor * VAD_SPEECH_FACTOR`, with the updated floor. -/
def isSpeech (floor rms : ℚ) : Bool :=
  decide (floor * VAD_SPEECH_FACTOR ≤ rms)

/-- One tick of `vadLoop` (`page.tsx` lines 353-418) on the VAD-relevant
state, given the tick's RMS.  Returns the new state and whether the barge-in
branch (lines 391-396, `bargeSentRef.current = true; ...`) fired.  The
cosmetic `lastUserLevelRef` / `ttsLevelRef` updates do not feed back into
this state and are omitted. -/
def vadTick (st : VadState) (rms : ℚ) : VadState × Bool :=
  let f := updateFloor st.noiseFloor rms
  if st.ttsPlaying then
    if isSpeech f rms then
      let ms := st.speakingMs + vadFrameMs
      if VAD_HOLD_MS ≤ ms ∧ st.bargeSent = false then
        ({ noiseFloor := f, speakingMs := ms, bargeSent := true,
           ttsPlaying := st.ttsPlaying }, true)
      else
        ({ noiseFloor := f, speakingMs := ms, bargeSent := st.bargeSent,
           ttsPlaying := st.ttsPlaying }, false)
    else
      ({ noiseFloor := f, speakingMs := max 0 (st.speakingMs - 2 * vadFrameMs),
         bargeSent := st.bargeSent, ttsPlaying := st.ttsPlaying }, false)
  else
    ({ noiseFloor := f, speakingMs := 0, bargeSent := st.bargeSent,
       ttsPlaying := st.ttsPlaying }, false)

/-- Run `vadLoop` over a list of per-tick RMS values, collecting the
barge-in emission flag of every tick. -/
def runVad (st : VadState) : List ℚ → VadState × List Bool
  | [] => (st, [])
  | rms :: rest =>
    ((runVad (vadTick st rms).1 rest).1,
     (vadTick st rms).2 :: (runVad (vadTick st rms).1 rest).2)

/-- Number of barge-in signals emitted while processing `l` from `st`. -/
def bargeCount (st : VadState) (l : List ℚ) : ℕ :=
  (runVad st l).2.count true

/-- The refs at session start: `noiseFloorRef` is initialised to `200`
(line 69), `speakingMsRef` to `0`; `start()` sets `bargeSentRef := false`. -/
def initVadState (tts : Bool) : VadState :=
  { noiseFloor := 200, speakingMs := 0, bargeSent := false, ttsPlaying := tts }

/-! ### Helper lemmas about single ticks and runs -/

theorem vadTick_ttsPlaying (st : VadState) (rms : ℚ) :
    (vadTick st rms).1.ttsPlaying = st.ttsPlaying := by
  simp only [vadTick]
  split_ifs <;> rfl

theorem vadTick_noiseFloor (st : VadState) (rms : ℚ) :
    (vadTick st rms).1.noiseFloor = updateFloor st.noiseFloor rms := by
  simp only [vadTick]
  split_ifs <;> rfl

theorem vadTick_emit_bargeSent (st : VadState) (rms : ℚ)
    (h : (vadTick st rms).2 = true) : (vadTick st rms).1.bargeSent = true := by
  simp only [vadTick] at h ⊢
  split_ifs at h ⊢
  all_goals simp_all

theorem vadTick_no_emit_bargeSent (st : VadState) (rms : ℚ)
    (h : (vadTick st rms).2 = false) :
    (vadTick st rms).1.bargeSent = st.bargeSent := by
  simp only [vadTick] at h ⊢
  split_ifs at h ⊢ <;> simp_all

theorem vadTick_sent_no_emit (st : VadState) (rms : ℚ)
    (h : st.bargeSent = true) : (vadTick st rms).2 = false := by
  simp only [vadTick]
  split_ifs with h1 h2 h3 <;> simp_all

theorem bargeCount_nil (st : VadState) : bargeCount st [] = 0 := rfl

theorem bargeCount_cons (st : VadState) (a : ℚ) (t : List ℚ) :
    bargeCount st (a :: t) =
      bargeCount (vadTick st a).1 t + if (vadTick st a).2 = true then 1 else 0 := by
  simp [bargeCount, runVad, List.count_cons]

theorem bargeCount_eq_zero_of_sent (st : VadState) (l : List ℚ)
    (h : st.bargeSent = true) : bargeCount st l = 0 := by
  induction l generalizing st with
  | nil => rfl
  | cons a t ih =>
    have he : (vadTick st a).2 = false := vadTick_sent_no_emit st a h
    have hb : (vadTick st a).1.bargeSent = true := by
      rw [vadTick_no_emit_bargeSent st a he]; exact h
    rw [bargeCount_cons, ih _ hb, he]
    simp

theorem bargeCount_le_one (st : VadState) (l : List ℚ) : bargeCount st l ≤ 1 := by
  induction l generalizing st with
  | nil => simp [bargeCount_nil]
  | cons a t ih =>
    rw [bargeCount_cons]
    by_cases he : (vadTick st a).2 = true
    · have hb := vadTick_emit_bargeSent st a he
      rw [bargeCount_eq_zero_of_sent _ t hb, he]
      simp
    · simp only [he, if_false]
      simpa using ih (vadTick st a).1

/-! ## Claims C1, C2, C9 -/

/-- C1. While remote playback is active (`ttsPlayingRef = true`): a
speech-classified tick adds the tick duration to `speakingMsRef`; a
non-speech tick subtracts twice the tick duration, clamped at zero, and
emits nothing; the barge-in branch fires exactly when the (incremented)
accumulator has reached `VAD_HOLD_MS` with the edge flag still clear; and
over any whole run at most one barge-in signal is emitted. -/
theorem vad_bargein_edge_triggered (st : VadState) (rms : ℚ) (l : List ℚ)
    (htts : st.ttsPlaying = true) (hbs : st.bargeSent = false) :
    (isSpeech (updateFloor st.noiseFloor rms) rms = true →
      (vadTick st rms).1.speakingMs = st.speakingMs + vadFrameMs) ∧
    (isSpeech (updateFloor st.noiseFloor rms) rms = false →
      (vadTick st rms).1.speakingMs = max 0 (st.speakingMs - 2 * vadFrameMs) ∧
      (vadTick st rms).2 = false) ∧
    ((vadTick st rms).2 = true ↔
      isSpeech (updateFloor st.noiseFloor rms) rms = true ∧
      VAD_HOLD_MS ≤ st.speakingMs + vadFrameMs) ∧
    bargeCount st l ≤ 1 := by
  refine ⟨?_, ?_, ?_, bargeCount_le_one st l⟩
  · intro hs
    simp [vadTick, htts, hs]
    split_ifs <;> rfl
  · intro hs
    simp [vadTick, htts, hs]
  · simp [vadTick, htts, hbs]
    split_ifs with h1 h2 <;> simp_all

/-- Witness for C1: twelve loud ticks from a fresh RemoteSpeaking state. -/
theorem vad_bargein_edge_triggered_witness :
    (isSpeech (updateFloor 200 10000) 10000 = true →
      (vadTick (initVadState true) 10000).1.speakingMs = 0 + vadFrameMs) ∧
    (isSpeech (updateFloor 200 10000) 10000 = false →
      (vadTick (initVadState true) 10000).1.speakingMs = max 0 (0 - 2 * vadFrameMs) ∧
      (vadTick (initVadState true) 10000).2 = false) ∧
    ((vadTick (initVadState true) 10000).2 = true ↔
      isSpeech (updateFloor 200 10000) 10000 = true ∧
      VAD_HOLD_MS ≤ 0 + vadFrameMs) ∧
    bargeCount (initVadState true) (List.replicate 12 10000) ≤ 1 :=
  vad_bargein_edge_triggered (initVadState true) 10000 (List.replicate 12 10000) rfl rfl

/-- C9. Whenever remote playback is not active, every VAD tick forces the
speech accumulator to zero and cannot emit a barge-in signal. -/
theorem vad_idle_accumulator_zero (st : VadState) (rms : ℚ)
    (h : st.ttsPlaying = false) :
    (vadTick st rms).1.speakingMs = 0 ∧ (vadTick st rms).2 = false := by
  simp [vadTick, h]

/-- Witness for C9 at a concrete non-RemoteSpeaking state. -/
theorem vad_idle_accumulator_zero_witness :
    (vadTick ⟨200, 37, false, false⟩ 5).1.speakingMs = 0 ∧
    (vadTick ⟨200, 37, false, false⟩ 5).2 = false :=
  vad_idle_accumulator_zero ⟨200, 37, false, false⟩ 5 rfl

/-- C2 (amended).  Every tick updates the noise floor exactly by
`updateFloor` (decay clamped at the epsilon `1`, then blend only on quiet
frames); *provided the floor is at least the epsilon `1`*, the floor never
increases on a frame whose RMS is at or above it; and (observably, through
the accumulator) a frame is classified speech iff
`rms >= updatedFloor * VAD_SPEECH_FACTOR`. -/
theorem vad_floor_update_spec (st : VadState) (rms : ℚ)
    (hfloor : 1 ≤ st.noiseFloor) (hms : 0 ≤ st.speakingMs) :
    (vadTick st rms).1.noiseFloor = updateFloor st.noiseFloor rms ∧
    (st.noiseFloor ≤ rms → updateFloor st.noiseFloor rms ≤ st.noiseFloor) ∧
    (st.ttsPlaying = true →
      ((vadTick st rms).1.speakingMs = st.speakingMs + vadFrameMs ↔
        updateFloor st.noiseFloor rms * VAD_SPEECH_FACTOR ≤ rms)) := by
  have hdecay : st.noiseFloor * VAD_DECAY ≤ st.noiseFloor := by
    unfold VAD_DECAY
    nlinarith
  have hf1 : max 1 (st.noiseFloor * VAD_DECAY) ≤ st.noiseFloor := max_le hfloor hdecay
  refine ⟨vadTick_noiseFloor st rms, ?_, ?_⟩
  · intro hrms
    have hle : max 1 (st.noiseFloor * VAD_DECAY) ≤ rms := le_trans hf1 hrms
    unfold updateFloor
    split_ifs with h
    · linarith
    · exact hf1
  · intro htts
    by_cases hs : isSpeech (updateFloor st.noiseFloor rms) rms = true
    · have hsp : updateFloor st.noiseFloor rms * VAD_SPEECH_FACTOR ≤ rms := by
        simpa [isSpeech] using hs
      constructor
      · intro _; exact hsp
      · intro _
        simp only [vadTick, htts, if_true, hs]
        split_ifs <;> rfl
    · have hsp : ¬ updateFloor st.noiseFloor rms * VAD_SPEECH_FACTOR ≤ rms := by
        simpa [isSpeech] using hs
      constructor
      · intro hacc
        exfalso
        simp [vadTick, htts, hs] at hacc
        have hlt : max 0 (st.speakingMs - 2 * vadFrameMs) < st.speakingMs + vadFrameMs := by
          apply max_lt
          · have hpos : (0:ℚ) < vadFrameMs := by norm_num [vadFrameMs]
            linarith
          · have hpos : (0:ℚ) < 3 * vadFrameMs := by norm_num [vadFrameMs]
            linarith
        exact (ne_of_lt hlt) hacc
      · intro h; exact absurd h hsp

/-- Witness for C2's amended theorem at a concrete loud frame. -/
theorem vad_floor_update_spec_witness :
    (vadTick ⟨200, 0, false, true⟩ 300).1.noiseFloor = updateFloor 200 300 ∧
    ((200:ℚ) ≤ 300 → updateFloor 200 300 ≤ 200) ∧
    ((true : Bool) = true →
      ((vadTick ⟨200, 0, false, true⟩ 300).1.speakingMs = 0 + vadFrameMs ↔
        updateFloor 200 300 * VAD_SPEECH_FACTOR ≤ 300)) :=
  vad_floor_update_spec ⟨200, 0, false, true⟩ 300 (by norm_num) (by norm_num)

/-- C2 counterexample.  The claim "the floor never increases on a frame
whose rms is at or above it" fails on the code: after 18 silent ticks from
the initial state the floor has decayed below the epsilon clamp `1`
(to `≈ 0.78`); the next tick with `rms = 2 ≥ floor` raises the floor back to
`1` via `Math.max(1, floor * VAD_DECAY)`. -/
theorem vad_floor_can_rise_counterexample :
    ((runVad (initVadState false) (List.replicate 18 0)).1.noiseFloor ≤ 2) ∧
    ((runVad (initVadState false) (List.replicate 18 0)).1.noiseFloor <
      (vadTick (runVad (initVadState false) (List.replicate 18 0)).1 2).1.noiseFloor) := by
  norm_num [runVad, vadTick, updateFloor, isSpeech, initVadState, VAD_DECAY, VAD_RISE,
    VAD_SPEECH_FACTOR, VAD_HOLD_MS, vadFrameMs, List.replicate]

/-! ## Duplex upload gate (`page.tsx`: `connectWS` handler, `rec.ondataavailable`) -/

/-- The duplex-control refs of `page.tsx` (lines 64-66): `ttsPlayingRef`,
`bargeSentRef`, and the mic-upload gate `canUploadRef`. -/
structure DuplexState where
  ttsPlaying : Bool
  bargeSent : Bool
  canUpload : Bool
deriving DecidableEq

/-- Server → client control messages of the `connectWS` `ws.onmessage`
switch: `tts_start`, `tts_end`, `tts_level`, and the default case. -/
inductive WsMsg where
  | ttsStart
  | ttsEnd
  | ttsLevel (value : ℚ)
  | other
deriving DecidableEq

/-- The `ws.onmessage` switch of `connectWS` (`page.tsx` lines 117-146; the
repository's WS control path, disabled in the snapshot for UI testing):
`tts_start` closes the upload gate, `tts_end` reopens it, `tts_level` and
unknown messages leave the duplex refs alone. -/
def handleWsMsg (st : DuplexState) : WsMsg → DuplexState
  | .ttsStart => { ttsPlaying := true, bargeSent := false, canUpload := false }
  | .ttsEnd => { ttsPlaying := false, bargeSent := false, canUpload := true }
  | .ttsLevel _ => st
  | .other => st

/-- Handler `rec.ondataavailable` (`page.tsx` lines 291-297): a captured chunk of
`size` bytes is forwarded upstream only when it is nonempty and the upload
gate is open; otherwise it is discarded (the handler returns early). -/
def onDataAvailable (st : DuplexState) (size : ℕ) : Option ℕ :=
  if size = 0 then none
  else if st.canUpload = false then none
  else some size

theorem gate_closed_preserved (s : DuplexState) (msgs : List WsMsg)
    (hs : s.canUpload = false) (hmsgs : WsMsg.ttsEnd ∉ msgs) :
    (msgs.foldl handleWsMsg s).canUpload = false := by
  induction msgs generalizing s with
  | nil => exact hs
  | cons m rest ih =>
    simp only [List.mem_cons, not_or] at hmsgs
    refine ih (handleWsMsg s m) ?_ hmsgs.2
    cases m with
    | ttsStart => rfl
    | ttsEnd => exact absurd rfl hmsgs.1
    | ttsLevel v => exact hs
    | other => exact hs

/-- C8. After a `tts_start` control message (RemoteSpeaking) and any
stretch of further control messages none of which is `tts_end`, the upload
gate is still closed and every captured chunk is discarded; handling
`tts_end` reopens the gate, so the very next nonempty captured chunk is
forwarded. -/
theorem upload_gate_correct (st st' : DuplexState) (msgs : List WsMsg)
    (size size' : ℕ) (hmsgs : WsMsg.ttsEnd ∉ msgs) (hsz : size' ≠ 0) :
    (msgs.foldl handleWsMsg (handleWsMsg st .ttsStart)).canUpload = false ∧
    onDataAvailable (msgs.foldl handleWsMsg (handleWsMsg st .ttsStart)) size = none ∧
    (handleWsMsg st' .ttsEnd).canUpload = true ∧
    onDataAvailable (handleWsMsg st' .ttsEnd) size' = some size' := by
  have hclosed : (msgs.foldl handleWsMsg (handleWsMsg st .ttsStart)).canUpload = false :=
    gate_closed_preserved _ msgs rfl hmsgs
  refine ⟨hclosed, ?_, rfl, ?_⟩
  · simp [onDataAvailable, hclosed]
  · simp [onDataAvailable, handleWsMsg, hsz]

/-- Witness for C8: a `tts_level` and an unknown message between
`tts_start` and `tts_end`, with 5- and 7-byte chunks. -/
theorem upload_gate_correct_witness :
    (([WsMsg.ttsLevel (1/2), WsMsg.other]).foldl handleWsMsg
        (handleWsMsg ⟨false, false, true⟩ .ttsStart)).canUpload = false ∧
    onDataAvailable (([WsMsg.ttsLevel (1/2), WsMsg.other]).foldl handleWsMsg
        (handleWsMsg ⟨false, false, true⟩ .ttsStart)) 5 = none ∧
    (handleWsMsg ⟨true, false, false⟩ .ttsEnd).canUpload = true ∧
    onDataAvailable (handleWsMsg ⟨true, false, false⟩ .ttsEnd) 7 = some 7 :=
  upload_gate_correct ⟨false, false, true⟩ ⟨true, false, false⟩
    [WsMsg.ttsLevel (1/2), WsMsg.other] 5 7 (by simp) (by simp)

end VoiceAgent

namespace Uplink

/-! ## Uplink transport backpressure (`src/unnamed/part_001`, `node.port.onmessage`) -/

/-- The uplink counters of `part_001` (`framesSent` / `framesDropped` React
state) together with, for the proof, the list of frames actually written to
the socket.  The handler calls `ws.send` directly and keeps no queue, so the
wire list is the only place a frame can go. -/
structure UplinkState where
  framesSent : ℕ
  framesDropped : ℕ
  wireFrames : List (List ℤ)
deriving DecidableEq

/-- Backpressure ceiling: `ws.bufferedAmount > 1_000_000` (line 215). -/
def BUFFER_CEILING : ℕ := 1000000

/-- Handler `node.port.onmessage` (`part_001` lines 212-222): if the socket is not
open the frame is ignored; if the outbound buffered amount exceeds the
ceiling the frame is dropped and the dropped counter incremented; otherwise
the frame is sent and the sent counter incremented. -/
def onFrame (wsOpen : Bool) (bufferedAmount : ℕ) (frame : List ℤ)
    (st : UplinkState) : UplinkState :=
  if wsOpen = false then st
  else if BUFFER_CEILING < bufferedAmount then
    { st with framesDropped := st.framesDropped + 1 }
  else
    { st with framesSent := st.framesSent + 1,
              wireFrames := st.wireFrames ++ [frame] }

/-- C7. With the channel open: when the outbound buffered amount exceeds
1,000,000 bytes the produced frame is dropped — the dropped counter is
incremented by one, the frame is not sent and (the state holding no queue)
not queued or retried; otherwise the frame is sent and the sent counter is
incremented.  `onFrame` is a total function: the session continues in both
cases. -/
theorem backpressure_drop_policy (bufferedAmount : ℕ) (frame : List ℤ)
    (st : UplinkState) :
    (BUFFER_CEILING < bufferedAmount →
      onFrame true bufferedAmount frame st =
        { st with framesDropped := st.framesDropped + 1 }) ∧
    (bufferedAmount ≤ BUFFER_CEILING →
      onFrame true bufferedAmount frame st =
        { st with framesSent := st.framesSent + 1,
                  wireFrames := st.wireFrames ++ [frame] }) := by
  constructor
  · intro h
    simp [onFrame, h]
  · intro h
    simp [onFrame, not_lt_of_le h]

end Uplink

namespace AudioStreamer

/-! ## Jitter-buffered playback scheduler (`AudioStreamer.tsx`) -/

/-- Constant `TARGET_SR = 24_000` (`AudioStreamer.tsx` line 25). -/
def TARGET_SR : ℚ := 24000

/-- Constant `LOOKAHEAD_SEC = 0.06` (line 27). -/
def LOOKAHEAD_SEC : ℚ := 3 / 50

/-- Constant `CATCHUP_MARGIN = 0.02` (line 28). -/
def CATCHUP_MARGIN : ℚ := 1 / 50

/-- The downlink player refs (lines 57-59): `ttsRateRef`, `ttsActiveRef`,
and the running playback clock `playbackTimeRef` (`null` until first use). -/
structure PlayerState where
  ttsRate : ℚ
  ttsActive : Bool
  playbackTime : Option ℚ
deriving DecidableEq

/-- Decoding `new Int16Array(buffer)`: decode a little-endian byte list into signed
16-bit samples (pairs of bytes; a trailing odd byte cannot occur behind the
validation guard). -/
def decodeInt16LE : List ℕ → List ℤ
  | [] => []
  | [_] => []
  | lo :: hi :: rest =>
    (if lo % 256 + 256 * (hi % 256) < 32768
      then ((lo % 256 + 256 * (hi % 256) : ℕ) : ℤ)
      else ((lo % 256 + 256 * (hi % 256) : ℕ) : ℤ) - 65536) :: decodeInt16LE rest

theorem decodeInt16LE_length : ∀ bytes : List ℕ,
    (decodeInt16LE bytes).length = bytes.length / 2
  | [] => rfl
  | [_] => by simp [decodeInt16LE]
  | lo :: hi :: rest => by
    simp only [decodeInt16LE, List.length_cons, decodeInt16LE_length rest]
    omega

/-- A chunk as scheduled by `schedulePcmChunk`: its decoded samples
(`ch[i] = pcm[i] / 32768`), the `src.start(when)` start time, and the
buffer's duration. -/
structure Scheduled where
  samples : List ℚ
  startTime : ℚ
  duration : ℚ
deriving DecidableEq

/-- The start-time selection of `schedulePcmChunk` (lines 301-307): use the
running clock, snapping it to `now + LOOKAHEAD_SEC` when it is unset or has
fallen behind `now + CATCHUP_MARGIN`. -/
def startOf (st : PlayerState) (now : ℚ) : ℚ :=
  match st.playbackTime with
  | none => now + LOOKAHEAD_SEC
  | some t => if t < now + CATCHUP_MARGIN then now + LOOKAHEAD_SEC else t

/-- The sample rate used for a decoded chunk (line 294):
`ttsActive ? ttsRate : TARGET_SR`. -/
def chunkRate (st : PlayerState) : ℚ :=
  if st.ttsActive then st.ttsRate else TARGET_SR

/-- Function `schedulePcmChunk` (`AudioStreamer.tsx` lines 287-319): validate the
buffer (at least 4 bytes and an even byte count) and require an audio
context, else ignore the chunk; decode PCM16 to floats; pick the start time
from the running clock with catch-up; schedule; advance the clock by the
chunk's exact duration `sampleCount / rate`. -/
def schedulePcmChunk (bytes : List ℕ) (ctxExists : Bool) (now : ℚ)
    (st : PlayerState) : PlayerState × Option Scheduled :=
  if bytes.length < 4 ∨ bytes.length % 2 ≠ 0 then (st, none)
  else if ctxExists = false then (st, none)
  else
    let samples := (decodeInt16LE bytes).map (fun v : ℤ => (v : ℚ) / 32768)
    let t0 := startOf st now
    let duration := (samples.length : ℚ) / chunkRate st
    ({ st with playbackTime := some (t0 + duration) },
     some { samples := samples, startTime := t0, duration := duration })

/-- Handling of `tts.start` in `ws.onmessage` (lines 88-98): record the
announced rate, mark TTS active, and reset the playback clock to
`now + LOOKAHEAD_SEC` for a glitch-free start. -/
def handleTtsStart (now rate : ℚ) (_st : PlayerState) : PlayerState :=
  { ttsRate := rate, ttsActive := true, playbackTime := some (now + LOOKAHEAD_SEC) }

/-- Handling of `tts.end` (lines 99-102): mark TTS inactive. -/
def handleTtsEnd (st : PlayerState) : PlayerState :=
  { st with ttsActive := false }

/-- On the valid path, `schedulePcmChunk` schedules at `startOf` and
advances the clock by the chunk's duration. -/
theorem schedulePcmChunk_valid (bytes : List ℕ) (now : ℚ) (st : PlayerState)
    (h4 : 4 ≤ bytes.length) (h2 : bytes.length % 2 = 0) :
    schedulePcmChunk bytes true now st =
      ({ st with
          playbackTime := some (startOf st now
            + ((bytes.length / 2 : ℕ) : ℚ) / chunkRate st) },
       some { samples := (decodeInt16LE bytes).map (fun v : ℤ => (v : ℚ) / 32768),
              startTime := startOf st now,
              duration := ((bytes.length / 2 : ℕ) : ℚ) / chunkRate st }) := by
  have hguard : ¬ (bytes.length < 4 ∨ bytes.length % 2 ≠ 0) := by omega
  have hlen : (((decodeInt16LE bytes).map (fun v : ℤ => (v : ℚ) / 32768)).length : ℚ)
      = ((bytes.length / 2 : ℕ) : ℚ) := by
    rw [List.length_map, decodeInt16LE_length]
  simp only [schedulePcmChunk, hguard, if_false, Bool.true_eq_false, hlen]

/-- Projection of `schedulePcmChunk_valid` to the updated state. -/
theorem schedulePcmChunk_valid_fst (bytes : List ℕ) (now : ℚ) (st : PlayerState)
    (h4 : 4 ≤ bytes.length) (h2 : bytes.length % 2 = 0) :
    (schedulePcmChunk bytes true now st).1 =
      { st with
          playbackTime := some (startOf st now
            + ((bytes.length / 2 : ℕ) : ℚ) / chunkRate st) } := by
  rw [schedulePcmChunk_valid bytes now st h4 h2]

/-- Projection of `schedulePcmChunk_valid` to the scheduled chunk. -/
theorem schedulePcmChunk_valid_snd (bytes : List ℕ) (now : ℚ) (st : PlayerState)
    (h4 : 4 ≤ bytes.length) (h2 : bytes.length % 2 = 0) :
    (schedulePcmChunk bytes true now st).2 =
      some { samples := (decodeInt16LE bytes).map (fun v : ℤ => (v : ℚ) / 32768),
             startTime := startOf st now,
             duration := ((bytes.length / 2 : ℕ) : ℚ) / chunkRate st } := by
  rw [schedulePcmChunk_valid bytes now st h4 h2]

/-- C3. For every valid decoded chunk with an audio context: when the
clock is unset or earlier than `now + CATCHUP_MARGIN` the chunk starts at
`now + LOOKAHEAD_SEC`, otherwise at the current clock value; a `tts.start`
control message resets the clock to `now + LOOKAHEAD_SEC`; and every
scheduled start is at least `now + CATCHUP_MARGIN`, so the clock never
drifts behind `now` by the accumulated sum of past arrival delays. -/
theorem schedule_catchup_spec (bytes : List ℕ) (now : ℚ) (st : PlayerState)
    (h4 : 4 ≤ bytes.length) (h2 : bytes.length % 2 = 0) :
    ∃ sch : Scheduled,
      (schedulePcmChunk bytes true now st).2 = some sch ∧
      (st.playbackTime = none → sch.startTime = now + LOOKAHEAD_SEC) ∧
      (∀ t, st.playbackTime = some t → t < now + CATCHUP_MARGIN →
        sch.startTime = now + LOOKAHEAD_SEC) ∧
      (∀ t, st.playbackTime = some t → now + CATCHUP_MARGIN ≤ t →
        sch.startTime = t) ∧
      now + CATCHUP_MARGIN ≤ sch.startTime ∧
      (∀ now2 rate, (handleTtsStart now2 rate st).playbackTime
        = some (now2 + LOOKAHEAD_SEC)) := by
  refine ⟨⟨(decodeInt16LE bytes).map (fun v : ℤ => (v : ℚ) / 32768), startOf st now,
      ((bytes.length / 2 : ℕ) : ℚ) / chunkRate st⟩, ?_, ?_, ?_, ?_, ?_, ?_⟩
  · exact schedulePcmChunk_valid_snd bytes now st h4 h2
  · intro hnone
    simp [startOf, hnone]
  · intro t ht hlt
    simp [startOf, ht, hlt]
  · intro t ht hge
    simp [startOf, ht, not_lt_of_le hge]
  · have hmargin : CATCHUP_MARGIN ≤ LOOKAHEAD_SEC := by
      norm_num [CATCHUP_MARGIN, LOOKAHEAD_SEC]
    show now + CATCHUP_MARGIN ≤ startOf st now
    rcases hpt : st.playbackTime with _ | t
    · simp only [startOf, hpt]
      linarith
    · simp only [startOf, hpt]
      split_ifs with h
      · linarith
      · linarith [not_lt.mp h]
  · intro now2 rate
    rfl

/-- Witness for C3: a 4-byte chunk arriving with no clock set. -/
theorem schedule_catchup_spec_witness :
    ∃ sch : Scheduled,
      (schedulePcmChunk [0, 0, 0, 0] true 10 ⟨24000, false, none⟩).2 = some sch ∧
      ((⟨24000, false, none⟩ : PlayerState).playbackTime = none →
        sch.startTime = 10 + LOOKAHEAD_SEC) ∧
      (∀ t, (⟨24000, false, none⟩ : PlayerState).playbackTime = some t →
        t < 10 + CATCHUP_MARGIN → sch.startTime = 10 + LOOKAHEAD_SEC) ∧
      (∀ t, (⟨24000, false, none⟩ : PlayerState).playbackTime = some t →
        10 + CATCHUP_MARGIN ≤ t → sch.startTime = t) ∧
      (10 : ℚ) + CATCHUP_MARGIN ≤ sch.startTime ∧
      (∀ now2 rate, (handleTtsStart now2 rate ⟨24000, false, none⟩).playbackTime
        = some (now2 + LOOKAHEAD_SEC)) :=
  schedule_catchup_spec [0, 0, 0, 0] 10 ⟨24000, false, none⟩ (by norm_num) (by norm_num)

/-- C4. After scheduling a chunk the clock advances by exactly the
chunk's duration `sampleCount / rate`; hence if a second chunk is scheduled
without triggering catch-up, its start time equals the first chunk's start
time plus the first chunk's duration (back-to-back, no overlap and no gap). -/
theorem schedule_advance_spec (b1 b2 : List ℕ) (now1 now2 : ℚ)
    (st0 : PlayerState)
    (h14 : 4 ≤ b1.length) (h12 : b1.length % 2 = 0)
    (h24 : 4 ≤ b2.length) (h22 : b2.length % 2 = 0) :
    ∃ s1 s2 : Scheduled,
      (schedulePcmChunk b1 true now1 st0).2 = some s1 ∧
      s1.duration = ((b1.length / 2 : ℕ) : ℚ) / chunkRate st0 ∧
      (schedulePcmChunk b1 true now1 st0).1.playbackTime
        = some (s1.startTime + s1.duration) ∧
      (schedulePcmChunk b2 true now2 (schedulePcmChunk b1 true now1 st0).1).2
        = some s2 ∧
      (now2 + CATCHUP_MARGIN ≤ s1.startTime + s1.duration →
        s2.startTime = s1.startTime + s1.duration) := by
  have h1fst := schedulePcmChunk_valid_fst b1 now1 st0 h14 h12
  have h1snd := schedulePcmChunk_valid_snd b1 now1 st0 h14 h12
  have h2snd := schedulePcmChunk_valid_snd b2 now2
    { st0 with
        playbackTime := some (startOf st0 now1
          + ((b1.length / 2 : ℕ) : ℚ) / chunkRate st0) } h24 h22
  refine ⟨{ samples := (decodeInt16LE b1).map (fun v : ℤ => (v : ℚ) / 32768),
            startTime := startOf st0 now1,
            duration := ((b1.length / 2 : ℕ) : ℚ) / chunkRate st0 },
          { samples := (decodeInt16LE b2).map (fun v : ℤ => (v : ℚ) / 32768),
            startTime := startOf { st0 with
              playbackTime := some (startOf st0 now1
                + ((b1.length / 2 : ℕ) : ℚ) / chunkRate st0) } now2,
            duration := ((b2.length / 2 : ℕ) : ℚ) / chunkRate { st0 with
              playbackTime := some (startOf st0 now1
                + ((b1.length / 2 : ℕ) : ℚ) / chunkRate st0) } },
          h1snd, rfl, ?_, ?_, ?_⟩
  · rw [h1fst]
  · rw [h1fst]
    exact h2snd
  · intro hnc
    dsimp only at hnc ⊢
    set a := startOf st0 now1 with ha
    set d := ((b1.length / 2 : ℕ) : ℚ) / chunkRate st0 with hd
    simp only [startOf]
    rw [if_neg (not_lt.mpr hnc)]

/-- Witness for C4: two 4-byte chunks, the second arriving in time. -/
theorem schedule_advance_spec_witness :
    ∃ s1 s2 : Scheduled,
      (schedulePcmChunk [0, 0, 0, 0] true 0 ⟨24000, false, none⟩).2 = some s1 ∧
      s1.duration = ((([0, 0, 0, 0] : List ℕ).length / 2 : ℕ) : ℚ)
        / chunkRate ⟨24000, false, none⟩ ∧
      (schedulePcmChunk [0, 0, 0, 0] true 0 ⟨24000, false, none⟩).1.playbackTime
        = some (s1.startTime + s1.duration) ∧
      (schedulePcmChunk [0, 0, 0, 0] true 0
        (schedulePcmChunk [0, 0, 0, 0] true 0 ⟨24000, false, none⟩).1).2 = some s2 ∧
      ((0 : ℚ) + CATCHUP_MARGIN ≤ s1.startTime + s1.duration →
        s2.startTime = s1.startTime + s1.duration) :=
  schedule_advance_spec [0, 0, 0, 0] [0, 0, 0, 0] 0 0 ⟨24000, false, none⟩
    (by norm_num) (by norm_num) (by norm_num) (by norm_num)

/-- C10. A binary downlink buffer whose byte length is less than 4 or not
a multiple of 2, or any buffer arriving when no audio context exists, is
ignored entirely: nothing is scheduled and the player state — the playback
clock included — is unchanged. -/
theorem schedule_ignores_malformed (bytes : List ℕ) (ctx : Bool) (now : ℚ)
    (st : PlayerState)
    (h : bytes.length < 4 ∨ bytes.length % 2 ≠ 0 ∨ ctx = false) :
    schedulePcmChunk bytes ctx now st = (st, none) := by
  unfold schedulePcmChunk
  rcases h with h | h | h
  · simp [h]
  · simp [h]
  · subst h
    split_ifs with h1 h2
    · rfl
    · rfl
    · exact absurd rfl h2

/-- Witness for C10: a 3-byte buffer with an audio context present. -/
theorem schedule_ignores_malformed_witness :
    schedulePcmChunk [0, 0, 0] true 5 ⟨24000, false, none⟩
      = (⟨24000, false, none⟩, none) :=
  schedule_ignores_malformed [0, 0, 0] true 5 ⟨24000, false, none⟩
    (Or.inl (by norm_num))

end AudioStreamer

namespace Downsampler

/-! ## The `PcmDownsampler` audio worklet (`src/unnamed/part_001`, lines 133-199)

The worklet keeps unread input (`inBuf` from index `inRead`; `process`
compacts after each call, so between calls the unread tail is the whole
buffer) and a fractional read position `_pos`.  `_produceOut` loops while a
full interpolation window is available, emitting one output sample per
iteration into a 320-sample `outBuf` that is flushed as an `Int16` frame
when full.  The worklet runs with `ratio = sampleRate / targetSr = 48000 /
16000 = 3`; every theorem below assumes only `1 ≤ ratio` (downsampling). -/

/-- Resampler state between `_produceOut` iterations: the unread input
samples and the fractional position `_pos`. -/
structure DSState where
  inBuf : List ℚ
  pos : ℚ
deriving DecidableEq

/-- One iteration of the `while (true)` loop of `_produceOut` (lines
168-182): with `nextPos = _pos + ratio` and `need = ceil(nextPos) + 1`, stop
(`none`) when fewer than `need` samples are available; otherwise emit the
sample linearly interpolated at `_pos` and consume `floor(nextPos)` input
samples.  JS reads `s0 = inBuf[base] || 0` and `s1 = inBuf[base+1] || s0`:
`||` substitutes the fallback when the indexed value is absent *or equals
`0`* (zero is falsy); for `s0` both give `0`, for `s1` the zero case is kept
explicitly. -/
def produceStep (r : ℚ) (s : DSState) : Option (ℚ × DSState) :=
  let nextPos := s.pos + r
  let need := (⌈nextPos⌉ + 1).toNat
  if s.inBuf.length < need then none
  else
    let base := (⌊s.pos⌋).toNat
    let s0 := s.inBuf.getD base 0
    let v1 := s.inBuf.getD (base + 1) 0
    let s1 := if v1 = 0 then s0 else v1
    let out := s0 + (s1 - s0) * (s.pos - ⌊s.pos⌋)
    some (out, ⟨s.inBuf.drop (⌊nextPos⌋).toNat, nextPos - ⌊nextPos⌋⟩)

/-- The `_produceOut` loop, fuel-indexed.  With `ratio ≥ 1` every iteration
consumes at least one input sample, so a fuel of the buffer length is enough
for the loop to run until its guard breaks (proved below). -/
def produceOut (r : ℚ) : ℕ → DSState → List ℚ × DSState
  | 0, s => ([], s)
  | fuel + 1, s =>
    match produceStep r s with
    | none => ([], s)
    | some (o, s') =>
      (o :: (produceOut r fuel s').1, (produceOut r fuel s').2)

/-- One call of `process` for one posted input batch (lines 184-196): append
the batch to the unread tail, then run `_produceOut` to exhaustion (the
compaction step only re-bases `inRead` and does not change the unread
samples). -/
def feed (r : ℚ) (s : DSState) (input : List ℚ) : List ℚ × DSState :=
  produceOut r (s.inBuf.length + input.length) ⟨s.inBuf ++ input, s.pos⟩

/-- A capture session: one `process` call per posted batch, in order,
concatenating the emitted output samples. -/
def feedBatches (r : ℚ) (s : DSState) : List (List ℚ) → List ℚ × DSState
  | [] => ([], s)
  | b :: bs =>
    ((feed r s b).1 ++ (feedBatches r (feed r s b).2 bs).1,
     (feedBatches r (feed r s b).2 bs).2)

/-! ### Closed form of the streaming resampler

Output sample `n` of the stream is the linear interpolation of the whole
input at position `n * ratio`; it is producible once
`ceil((n+1) * ratio) + 1` input samples have arrived. -/

/-- Linear interpolation of the concatenated input at position `x`, with the
JS `|| `-fallbacks of `produceStep`. -/
def interpAt (I : List ℚ) (x : ℚ) : ℚ :=
  let b := (⌊x⌋).toNat
  let s0 := I.getD b 0
  let v1 := I.getD (b + 1) 0
  let s1 := if v1 = 0 then s0 else v1
  s0 + (s1 - s0) * Int.fract x

/-- Number of output samples producible from `len` input samples:
the largest `n` with `ceil(n * ratio) + 1 ≤ len`. -/
def numOut (r : ℚ) (len : ℕ) : ℕ := (⌊((len : ℚ) - 1) / r⌋).toNat

/-- The resampler state after the first `n` outputs over total input `I`:
`floor(n * ratio)` samples consumed, position `fract(n * ratio)`. -/
def dsInv (r : ℚ) (I : List ℚ) (n : ℕ) : DSState :=
  ⟨I.drop ((⌊(n : ℚ) * r⌋).toNat), Int.fract ((n : ℚ) * r)⟩

/-- Output samples `a ≤ n < b` of the stream over total input `I`. -/
def segOut (r : ℚ) (I : List ℚ) (a b : ℕ) : List ℚ :=
  (List.range' a (b - a)).map (fun i : ℕ => interpAt I ((i : ℚ) * r))

/-! ### Arithmetic lemmas -/

theorem getD_drop (l : List ℚ) (k i : ℕ) (d : ℚ) :
    (l.drop k).getD i d = l.getD (k + i) d := by
  simp [List.getD_eq_getElem?_getD, List.getElem?_drop]

theorem numOut_succ_le_iff (r : ℚ) (hr : 0 < r) (L n : ℕ) :
    n + 1 ≤ numOut r L ↔ ((n : ℚ) + 1) * r ≤ (L : ℚ) - 1 := by
  unfold numOut
  have h1 : n + 1 ≤ (⌊((L : ℚ) - 1) / r⌋).toNat ↔
      (n : ℤ) < ⌊((L : ℚ) - 1) / r⌋ := by
    rw [← Int.lt_toNat]
    omega
  rw [h1, Int.lt_iff_add_one_le, Int.le_floor]
  push_cast
  rw [le_div_iff₀ hr]

theorem mul_le_of_le_numOut (r : ℚ) (hr : 0 < r) (L n : ℕ) (hL : 1 ≤ L)
    (hn : n ≤ numOut r L) : (n : ℚ) * r ≤ (L : ℚ) - 1 := by
  rcases Nat.eq_zero_or_pos n with h0 | hpos
  · subst h0
    have : (1 : ℚ) ≤ (L : ℚ) := by exact_mod_cast hL
    simp
    linarith
  · have h1 : (n - 1) + 1 ≤ numOut r L := by omega
    have h2 := (numOut_succ_le_iff r hr L (n - 1)).mp h1
    have h3 : ((n - 1 : ℕ) : ℚ) + 1 = (n : ℚ) := by
      have : ((n - 1 : ℕ) : ℚ) = (n : ℚ) - 1 := by
        push_cast [Nat.cast_sub hpos]
        ring
      rw [this]; ring
    rw [h3] at h2
    exact h2

theorem numOut_mono (r : ℚ) (hr : 0 < r) (L L' : ℕ) (h : L ≤ L') :
    numOut r L ≤ numOut r L' := by
  unfold numOut
  have hq : ((L : ℚ) - 1) / r ≤ ((L' : ℚ) - 1) / r := by
    have hcast : (L : ℚ) ≤ (L' : ℚ) := by exact_mod_cast h
    gcongr
  have := Int.floor_le_floor hq
  omega

theorem numOut_zero (r : ℚ) (hr : 0 < r) : numOut r 0 = 0 := by
  unfold numOut
  have h1 : ((0 : ℕ) : ℚ) - 1 < 0 := by norm_num
  have h2 : ((0 : ℕ) : ℚ) - 1 = -1 := by norm_num
  have h3 : (-1 : ℚ) / r < 0 := div_neg_of_neg_of_pos (by norm_num) hr
  have h4 : ⌊(-1 : ℚ) / r⌋ < 0 := by
    by_contra hge
    push_neg at hge
    have : (0 : ℚ) ≤ (-1 : ℚ) / r := le_trans (by exact_mod_cast hge) (Int.floor_le _)
    linarith
  rw [h2]
  omega

theorem floor_mul_le (r : ℚ) (hr : 0 < r) (L n : ℕ) (hL : 1 ≤ L)
    (hn : n ≤ numOut r L) : (⌊(n : ℚ) * r⌋).toNat + 1 ≤ L := by
  have hq := mul_le_of_le_numOut r hr L n hL hn
  have h1 : ⌊(n : ℚ) * r⌋ ≤ ⌊(L : ℚ) - 1⌋ := Int.floor_le_floor hq
  have h2 : ⌊(L : ℚ) - 1⌋ = (L : ℤ) - 1 := by
    rw [show ((L : ℚ) - 1) = (((L : ℤ) - 1 : ℤ) : ℚ) from by push_cast; ring,
      Int.floor_intCast]
  rw [h2] at h1
  omega

theorem floor_mul_le_length (r : ℚ) (hr : 0 < r) (L n : ℕ)
    (hn : n ≤ numOut r L) : (⌊(n : ℚ) * r⌋).toNat ≤ L := by
  rcases Nat.eq_zero_or_pos L with h0 | hL
  · subst h0
    have hN := numOut_zero r hr
    have hn0 : n = 0 := by omega
    subst hn0
    simp
  · have := floor_mul_le r hr L n hL hn
    omega

theorem floor_mul_nonneg (r : ℚ) (hr : 0 < r) (n : ℕ) :
    (0 : ℤ) ≤ ⌊(n : ℚ) * r⌋ := by
  apply Int.floor_nonneg.mpr
  positivity

theorem fract_add_ceil (x r : ℚ) : ⌈Int.fract x + r⌉ = ⌈x + r⌉ - ⌊x⌋ := by
  have h : Int.fract x + r = (x + r) - (⌊x⌋ : ℚ) := by
    unfold Int.fract
    ring
  rw [h, Int.ceil_sub_int]

theorem fract_add_floor (x r : ℚ) : ⌊Int.fract x + r⌋ = ⌊x + r⌋ - ⌊x⌋ := by
  have h : Int.fract x + r = (x + r) - (⌊x⌋ : ℚ) := by
    unfold Int.fract
    ring
  rw [h, Int.floor_sub_int]

theorem fract_fract_add (x r : ℚ) :
    Int.fract (Int.fract x + r) = Int.fract (x + r) := by
  have h : Int.fract x + r = (x + r) - (⌊x⌋ : ℚ) := by
    unfold Int.fract
    ring
  rw [h, Int.fract_sub_int]

/-- The `_produceOut` guard at stream position `n`: the loop breaks exactly
when all producible samples have been produced. -/
theorem guard_iff (r : ℚ) (hr : 1 ≤ r) (I : List ℚ) (n : ℕ)
    (hn : n ≤ numOut r I.length) :
    ((dsInv r I n).inBuf.length < (⌈(dsInv r I n).pos + r⌉ + 1).toNat ↔
      numOut r I.length ≤ n) := by
  have hr0 : (0 : ℚ) < r := lt_of_lt_of_le one_pos hr
  have hA : (0 : ℤ) ≤ ⌊(n : ℚ) * r⌋ := floor_mul_nonneg r hr0 n
  have hkL : (⌊(n : ℚ) * r⌋).toNat ≤ I.length := floor_mul_le_length r hr0 _ n hn
  have hceil : ⌈Int.fract ((n : ℚ) * r) + r⌉ =
      ⌈((n : ℚ) + 1) * r⌉ - ⌊(n : ℚ) * r⌋ := by
    rw [fract_add_ceil, show (n : ℚ) * r + r = ((n : ℚ) + 1) * r from by ring]
  have hCA : ⌊(n : ℚ) * r⌋ ≤ ⌈((n : ℚ) + 1) * r⌉ :=
    calc ⌊(n : ℚ) * r⌋ ≤ ⌈(n : ℚ) * r⌉ := Int.floor_le_ceil _
    _ ≤ ⌈((n : ℚ) + 1) * r⌉ := Int.ceil_le_ceil (by nlinarith)
  have hiff : n + 1 ≤ numOut r I.length ↔
      ⌈((n : ℚ) + 1) * r⌉ ≤ (I.length : ℤ) - 1 := by
    rw [numOut_succ_le_iff r hr0 I.length n, Int.ceil_le]
    constructor
    · intro h
      push_cast
      linarith
    · intro h
      push_cast at h
      linarith
  simp only [dsInv, List.length_drop]
  rw [hceil]
  omega

theorem produceStep_none (r : ℚ) (s : DSState)
    (h : s.inBuf.length < (⌈s.pos + r⌉ + 1).toNat) : produceStep r s = none := by
  simp only [produceStep]
  rw [if_pos h]

/-- The loop body at stream position `n < numOut`: the emitted sample is the
closed-form interpolation at `n * ratio` and the state advances to position
`n + 1`. -/
theorem produceStep_succ (r : ℚ) (hr : 1 ≤ r) (I : List ℚ) (n : ℕ)
    (hn1 : n + 1 ≤ numOut r I.length) :
    produceStep r (dsInv r I n) =
      some (interpAt I ((n : ℚ) * r), dsInv r I (n + 1)) := by
  have hr0 : (0 : ℚ) < r := lt_of_lt_of_le one_pos hr
  have hn : n ≤ numOut r I.length := by omega
  have hguard : ¬ ((dsInv r I n).inBuf.length <
      (⌈(dsInv r I n).pos + r⌉ + 1).toNat) := by
    rw [guard_iff r hr I n hn]
    omega
  simp only [produceStep]
  rw [if_neg hguard]
  refine congrArg some (Prod.ext ?_ ?_)
  · show (dsInv r I n).inBuf.getD ((⌊(dsInv r I n).pos⌋).toNat) 0 + _ = _
    simp only [dsInv, interpAt, Int.floor_fract, Int.toNat_zero, getD_drop,
      Nat.add_zero, Int.cast_zero, sub_zero]
  · show DSState.mk _ _ = _
    have hfl : ⌊Int.fract ((n : ℚ) * r) + r⌋ =
        ⌊((n : ℚ) + 1) * r⌋ - ⌊(n : ℚ) * r⌋ := by
      rw [fract_add_floor, show (n : ℚ) * r + r = ((n : ℚ) + 1) * r from by ring]
    have hcast : ((n + 1 : ℕ) : ℚ) = (n : ℚ) + 1 := by push_cast; ring
    have hA := floor_mul_nonneg r hr0 n
    have hmono : ⌊(n : ℚ) * r⌋ ≤ ⌊((n : ℚ) + 1) * r⌋ :=
      Int.floor_le_floor (by nlinarith)
    have hidx : (⌊(n : ℚ) * r⌋).toNat + (⌊Int.fract ((n : ℚ) * r) + r⌋).toNat
        = (⌊((n + 1 : ℕ) : ℚ) * r⌋).toNat := by
      rw [hcast, hfl]
      omega
    have hpos2 : Int.fract ((n : ℚ) * r) + r - (⌊Int.fract ((n : ℚ) * r) + r⌋ : ℚ)
        = Int.fract (((n + 1 : ℕ) : ℚ) * r) := by
      have h1 : Int.fract ((n : ℚ) * r) + r - (⌊Int.fract ((n : ℚ) * r) + r⌋ : ℚ)
          = Int.fract (Int.fract ((n : ℚ) * r) + r) := rfl
      rw [h1, fract_fract_add, hcast,
        show (n : ℚ) * r + r = ((n : ℚ) + 1) * r from by ring]
    simp only [dsInv, List.drop_drop]
    rw [hidx, hpos2]

theorem segOut_cons (r : ℚ) (I : List ℚ) (a b : ℕ) (hab : a < b) :
    segOut r I a b = interpAt I ((a : ℚ) * r) :: segOut r I (a + 1) b := by
  unfold segOut
  rw [show b - a = (b - (a + 1)) + 1 from by omega, List.range'_succ]
  simp

/-- Running `_produceOut` with enough fuel from stream position `n` emits
exactly the remaining producible samples and lands at the final position. -/
theorem produceOut_spec (r : ℚ) (hr : 1 ≤ r) (I : List ℚ) :
    ∀ (fuel n : ℕ), n ≤ numOut r I.length →
      I.length ≤ fuel + (⌊(n : ℚ) * r⌋).toNat →
      produceOut r fuel (dsInv r I n) =
        (segOut r I n (numOut r I.length), dsInv r I (numOut r I.length)) := by
  intro fuel
  induction fuel with
  | zero =>
    intro n hn hfuel
    have hr0 : (0 : ℚ) < r := lt_of_lt_of_le one_pos hr
    have hEq : n = numOut r I.length := by
      rcases Nat.eq_zero_or_pos I.length with h0 | hL
      · have h1 : numOut r I.length = 0 := by rw [h0]; exact numOut_zero r hr0
        omega
      · have := floor_mul_le r hr0 I.length n hL hn
        omega
    rw [hEq]
    unfold segOut
    simp [produceOut]
  | succ fuel ih =>
    intro n hn hfuel
    by_cases hend : numOut r I.length ≤ n
    · have hEq : n = numOut r I.length := le_antisymm hn hend
      rw [hEq]
      have hguard : (dsInv r I (numOut r I.length)).inBuf.length <
          (⌈(dsInv r I (numOut r I.length)).pos + r⌉ + 1).toNat := by
        rw [guard_iff r hr I _ (le_refl _)]
      have hstep := produceStep_none r _ hguard
      simp only [produceOut, hstep]
      unfold segOut
      simp
    · push_neg at hend
      have hn1 : n + 1 ≤ numOut r I.length := hend
      have hstep := produceStep_succ r hr I n hn1
      simp only [produceOut, hstep]
      have hfuel' : I.length ≤ fuel + (⌊((n + 1 : ℕ) : ℚ) * r⌋).toNat := by
        have hr0 : (0 : ℚ) < r := lt_of_lt_of_le one_pos hr
        have hcast : ((n + 1 : ℕ) : ℚ) = (n : ℚ) + 1 := by push_cast; ring
        have h1 : (n : ℚ) * r + 1 ≤ ((n : ℚ) + 1) * r := by nlinarith
        have h2 : ⌊(n : ℚ) * r + 1⌋ = ⌊(n : ℚ) * r⌋ + 1 := by
          rw [show (1 : ℚ) = ((1 : ℤ) : ℚ) from by norm_num, Int.floor_add_int]
        have h3 : ⌊(n : ℚ) * r⌋ + 1 ≤ ⌊((n + 1 : ℕ) : ℚ) * r⌋ := by
          rw [hcast, ← h2]
          exact Int.floor_le_floor h1
        have hA := floor_mul_nonneg r hr0 n
        omega
      rw [ih (n + 1) hn1 hfuel']
      rw [segOut_cons r I n (numOut r I.length) hend]

/-- One `process` call from the end-of-stream state over `I` appends the new
batch and produces exactly the newly-producible samples. -/
theorem feed_spec (r : ℚ) (hr : 1 ≤ r) (I J : List ℚ) :
    feed r (dsInv r I (numOut r I.length)) J =
      (segOut r (I ++ J) (numOut r I.length) (numOut r (I ++ J).length),
       dsInv r (I ++ J) (numOut r (I ++ J).length)) := by
  have hr0 : (0 : ℚ) < r := lt_of_lt_of_le one_pos hr
  have hk : (⌊(numOut r I.length : ℚ) * r⌋).toNat ≤ I.length :=
    floor_mul_le_length r hr0 _ _ (le_refl _)
  have hstate : (⟨(dsInv r I (numOut r I.length)).inBuf ++ J,
      (dsInv r I (numOut r I.length)).pos⟩ : DSState)
      = dsInv r (I ++ J) (numOut r I.length) := by
    simp only [dsInv]
    rw [List.drop_append_of_le_length hk]
  unfold feed
  rw [hstate]
  apply produceOut_spec r hr (I ++ J)
  · rw [List.length_append]
    exact numOut_mono r hr0 _ _ (Nat.le_add_right _ _)
  · simp only [dsInv, List.length_drop, List.length_append]
    omega

/-- The interpolation of a producible output sample only reads the prefix:
appending future input does not change it. -/
theorem interpAt_stable (r : ℚ) (hr : 1 ≤ r) (I J : List ℚ) (i : ℕ)
    (hi : i + 1 ≤ numOut r I.length) :
    interpAt (I ++ J) ((i : ℚ) * r) = interpAt I ((i : ℚ) * r) := by
  have hr0 : (0 : ℚ) < r := lt_of_lt_of_le one_pos hr
  have hq := (numOut_succ_le_iff r hr0 I.length i).mp hi
  have h1 : (i : ℚ) * r + 1 ≤ ((i : ℚ) + 1) * r := by nlinarith
  have h2 : ⌊(i : ℚ) * r⌋ ≤ (I.length : ℤ) - 2 := by
    have h3 : (i : ℚ) * r ≤ (I.length : ℚ) - 2 := by linarith
    have h4 := Int.floor_le_floor h3
    rwa [show ((I.length : ℚ) - 2) = (((I.length : ℤ) - 2 : ℤ) : ℚ) from by
      push_cast; ring, Int.floor_intCast] at h4
  have hL2 : (2 : ℚ) ≤ (I.length : ℚ) := by nlinarith [Nat.cast_nonneg (α := ℚ) i]
  have hL2' : 2 ≤ I.length := by exact_mod_cast hL2
  have hb1 : (⌊(i : ℚ) * r⌋).toNat < I.length := by omega
  have hb2 : (⌊(i : ℚ) * r⌋).toNat + 1 < I.length := by omega
  simp only [interpAt]
  rw [List.getD_append I J 0 _ hb1, List.getD_append I J 0 _ hb2]

theorem segOut_stable (r : ℚ) (hr : 1 ≤ r) (I J : List ℚ) (a b : ℕ)
    (hb : b ≤ numOut r I.length) :
    segOut r (I ++ J) a b = segOut r I a b := by
  unfold segOut
  apply List.map_congr_left
  intro i hi
  have hmem := List.mem_range'_1.mp hi
  have hib : i + 1 ≤ numOut r I.length := by omega
  exact interpAt_stable r hr I J i hib

theorem segOut_append (r : ℚ) (I : List ℚ) (a b c : ℕ)
    (hab : a ≤ b) (hbc : b ≤ c) :
    segOut r I a b ++ segOut r I b c = segOut r I a c := by
  unfold segOut
  rw [← List.map_append]
  congr 1
  have h := List.range'_append a (b - a) (c - b) 1
  simp only [Nat.mul_one, one_mul] at h
  rw [show a + (b - a) = b from by omega] at h
  rw [show (c - b) + (b - a) = c - a from by omega] at h
  exact h

/-! ### The 320-sample framer of the worklet -/

/-- Quantization of `_flushFrame` (lines 158-166):
`(Math.max(-1, Math.min(1, s)) * 0x7fff) | 0` — clamp to `[-1, 1]`, scale by
`32767`, truncate toward zero. -/
def quantInt16 (s : ℚ) : ℤ :=
  if 0 ≤ max (-1) (min 1 s) then ⌊max (-1) (min 1 s) * 32767⌋
  else ⌈max (-1) (min 1 s) * 32767⌉

/-- Writing one resampled sample into `outBuf` (`outBuf[outWrite++] = ...`)
followed by the flush check `outWrite >= outBuf.length`: when the buffer
reaches `N` samples it is quantized and posted as one frame. -/
def framerPush (N : ℕ) (st : List ℚ) (x : ℚ) : List ℚ × Option (List ℤ) :=
  if N ≤ (st ++ [x]).length then ([], some ((st ++ [x]).map quantInt16))
  else (st ++ [x], none)

/-- Feeding a run of resampled samples through the framer, collecting the
flushed frames in order. -/
def framerFeed (N : ℕ) (st : List ℚ) : List ℚ → List ℚ × List (List ℤ)
  | [] => (st, [])
  | x :: xs =>
    ((framerFeed N (framerPush N st x).1 xs).1,
     (framerPush N st x).2.toList ++ (framerFeed N (framerPush N st x).1 xs).2)

theorem framerFeed_append (N : ℕ) (xs ys : List ℚ) :
    ∀ st : List ℚ, framerFeed N st (xs ++ ys) =
      ((framerFeed N (framerFeed N st xs).1 ys).1,
       (framerFeed N st xs).2 ++ (framerFeed N (framerFeed N st xs).1 ys).2) := by
  induction xs with
  | nil =>
    intro st
    simp [framerFeed]
  | cons x xs ih =>
    intro st
    simp only [List.cons_append, framerFeed, List.append_eq]
    rw [ih]
    simp [List.append_assoc]

/-- Every flushed frame holds exactly `N` samples, the retained tail stays
shorter than `N`, and no sample is lost or flushed early. -/
theorem framerFeed_frames (N : ℕ) (hN : 0 < N) :
    ∀ (xs st : List ℚ), st.length < N →
      (∀ f ∈ (framerFeed N st xs).2, f.length = N) ∧
      (framerFeed N st xs).1.length < N ∧
      (framerFeed N st xs).2.length * N + (framerFeed N st xs).1.length
        = st.length + xs.length := by
  intro xs
  induction xs with
  | nil =>
    intro st hst
    refine ⟨?_, hst, ?_⟩
    · intro f hf
      simp [framerFeed] at hf
    · simp [framerFeed]
  | cons x xs ih =>
    intro st hst
    by_cases hfull : N ≤ (st ++ [x]).length
    · have hpush : framerPush N st x = ([], some ((st ++ [x]).map quantInt16)) := by
        unfold framerPush
        rw [if_pos hfull]
      have hlen : st.length + 1 = N := by
        simp only [List.length_append, List.length_cons, List.length_nil] at hfull
        omega
      obtain ⟨ih1, ih2, ih3⟩ := ih [] (by simpa using hN)
      refine ⟨?_, ?_, ?_⟩
      · intro f hf
        simp only [framerFeed, hpush, Option.toList_some, List.singleton_append,
          List.mem_cons] at hf
        rcases hf with hf | hf
        · rw [hf]
          simp only [List.length_map, List.length_append, List.length_cons,
            List.length_nil]
          omega
        · exact ih1 f hf
      · simpa only [framerFeed, hpush] using ih2
      · have hmul : ((framerFeed N ([] : List ℚ) xs).2.length + 1) * N
            = (framerFeed N ([] : List ℚ) xs).2.length * N + N := by ring
        simp only [framerFeed, hpush, Option.toList_some, List.singleton_append,
          List.length_cons, List.length_nil] at ih3 ⊢
        omega
    · have hpush : framerPush N st x = (st ++ [x], none) := by
        unfold framerPush
        rw [if_neg hfull]
      have hlt : (st ++ [x]).length < N := by omega
      obtain ⟨ih1, ih2, ih3⟩ := ih (st ++ [x]) hlt
      refine ⟨?_, ?_, ?_⟩
      · intro f hf
        simp only [framerFeed, hpush, Option.toList_none, List.nil_append] at hf
        exact ih1 f hf
      · simpa only [framerFeed, hpush] using ih2
      · simp only [framerFeed, hpush, Option.toList_none, List.nil_append,
          List.length_append, List.length_cons, List.length_nil] at ih3 ⊢
        omega

/-! ### The full worklet pipeline and batch-split invariance -/

/-- Combined worklet state: the resampler state and the partial `outBuf`. -/
structure PipeState where
  ds : DSState
  fill : List ℚ
deriving DecidableEq

/-- One `process` call: resample the posted batch, then push every produced
sample through the framer. -/
def pipelineFeed (r : ℚ) (N : ℕ) (st : PipeState) (input : List ℚ) :
    PipeState × List ℚ × List (List ℤ) :=
  (⟨(feed r st.ds input).2, (framerFeed N st.fill (feed r st.ds input).1).1⟩,
   (feed r st.ds input).1,
   (framerFeed N st.fill (feed r st.ds input).1).2)

/-- A whole capture session over a list of posted batches, concatenating the
produced samples and the flushed frames in order. -/
def pipelineFeedBatches (r : ℚ) (N : ℕ) (st : PipeState) :
    List (List ℚ) → PipeState × List ℚ × List (List ℤ)
  | [] => (st, [], [])
  | b :: bs =>
    ((pipelineFeedBatches r N (pipelineFeed r N st b).1 bs).1,
     (pipelineFeed r N st b).2.1
       ++ (pipelineFeedBatches r N (pipelineFeed r N st b).1 bs).2.1,
     (pipelineFeed r N st b).2.2
       ++ (pipelineFeedBatches r N (pipelineFeed r N st b).1 bs).2.2)

/-- The worklet constructor state: empty input tail, `_pos = 0`, empty
`outBuf`. -/
def initPipe : PipeState := ⟨⟨[], 0⟩, []⟩

/-- Normal form of a session: feeding any batch list from the end-of-stream
state over `I` produces exactly the closed-form output segment and frames of
the concatenated input — the batch boundaries disappear. -/
theorem pipeline_normal (r : ℚ) (N : ℕ) (hr : 1 ≤ r) :
    ∀ (bs : List (List ℚ)) (I f : List ℚ),
      pipelineFeedBatches r N ⟨dsInv r I (numOut r I.length), f⟩ bs =
        (⟨dsInv r (I ++ bs.flatten) (numOut r (I ++ bs.flatten).length),
          (framerFeed N f (segOut r (I ++ bs.flatten) (numOut r I.length)
            (numOut r (I ++ bs.flatten).length))).1⟩,
         segOut r (I ++ bs.flatten) (numOut r I.length)
           (numOut r (I ++ bs.flatten).length),
         (framerFeed N f (segOut r (I ++ bs.flatten) (numOut r I.length)
           (numOut r (I ++ bs.flatten).length))).2) := by
  intro bs
  induction bs with
  | nil =>
    intro I f
    have hseg : segOut r I (numOut r I.length) (numOut r I.length) = [] := by
      unfold segOut
      simp
    simp only [pipelineFeedBatches, List.flatten_nil, List.append_nil, hseg]
    simp [framerFeed]
  | cons b bs ih =>
    intro I f
    have hr0 : (0 : ℚ) < r := lt_of_lt_of_le one_pos hr
    have hflat : (I ++ b) ++ bs.flatten = I ++ (b :: bs).flatten := by
      rw [List.flatten_cons, List.append_assoc]
    have hN01 : numOut r I.length ≤ numOut r (I ++ b).length := by
      rw [List.length_append]
      exact numOut_mono r hr0 _ _ (Nat.le_add_right _ _)
    have hN12 : numOut r (I ++ b).length
        ≤ numOut r ((I ++ b) ++ bs.flatten).length := by
      rw [List.length_append (I ++ b)]
      exact numOut_mono r hr0 _ _ (Nat.le_add_right _ _)
    have hseg1 : segOut r ((I ++ b) ++ bs.flatten) (numOut r I.length)
          (numOut r (I ++ b).length)
        = segOut r (I ++ b) (numOut r I.length) (numOut r (I ++ b).length) :=
      segOut_stable r hr (I ++ b) bs.flatten _ _ (le_refl _)
    have hsegcat : segOut r ((I ++ b) ++ bs.flatten) (numOut r I.length)
            (numOut r (I ++ b).length)
          ++ segOut r ((I ++ b) ++ bs.flatten) (numOut r (I ++ b).length)
            (numOut r ((I ++ b) ++ bs.flatten).length)
        = segOut r ((I ++ b) ++ bs.flatten) (numOut r I.length)
            (numOut r ((I ++ b) ++ bs.flatten).length) :=
      segOut_append r _ _ _ _ hN01 hN12
    simp only [pipelineFeedBatches, pipelineFeed]
    rw [feed_spec r hr I b]
    dsimp only
    rw [ih (I ++ b)]
    dsimp only
    rw [← hflat, ← hsegcat, hseg1, framerFeed_append]

theorem dsInv_nil (r : ℚ) (hr : 1 ≤ r) :
    dsInv r [] (numOut r ([] : List ℚ).length) = ⟨[], 0⟩ := by
  have hr0 : (0 : ℚ) < r := lt_of_lt_of_le one_pos hr
  have h0 : numOut r ([] : List ℚ).length = 0 := by
    simp only [List.length_nil]
    exact numOut_zero r hr0
  rw [h0]
  unfold dsInv
  simp [Int.fract_zero]

/-! ## Claims C5 and C6 -/

/-- C5. The worklet pipeline is batch-split invariant: for any two ways
of splitting the same input sample sequence into consecutive batches,
feeding the batches in order from the initial state yields the identical
concatenated output sample sequence, the identical sequence of emitted
frames, and the identical final state — because the fractional read cursor
and unconsumed input tail are carried across calls.  (`ratio ≥ 1`: the
worklet runs at `48000 / 16000 = 3`.) -/
theorem resampler_batch_split_invariant (r : ℚ) (N : ℕ) (hr : 1 ≤ r)
    (bs1 bs2 : List (List ℚ)) (h : bs1.flatten = bs2.flatten) :
    pipelineFeedBatches r N initPipe bs1 = pipelineFeedBatches r N initPipe bs2 := by
  have hinit : initPipe
      = (⟨dsInv r [] (numOut r ([] : List ℚ).length), []⟩ : PipeState) := by
    rw [dsInv_nil r hr]
    rfl
  rw [hinit, pipeline_normal r N hr bs1 [] [], pipeline_normal r N hr bs2 [] [],
    List.nil_append, List.nil_append, h]

/-- Witness for C5: the samples `1..8` at ratio `3`, split one way as a
single batch and another way as `3 + 5`. -/
theorem resampler_batch_split_invariant_witness :
    pipelineFeedBatches 3 320 initPipe [[1, 2, 3, 4, 5, 6, 7, 8]] =
      pipelineFeedBatches 3 320 initPipe [[1, 2, 3], [4, 5, 6, 7, 8]] :=
  resampler_batch_split_invariant 3 320 (by norm_num)
    [[1, 2, 3, 4, 5, 6, 7, 8]] [[1, 2, 3], [4, 5, 6, 7, 8]] (by simp)

/-- Frame size `outSamplesPerFrame = Math.floor(targetSr * frameMs / 1000)`
(`part_001` line 140). -/
def outSamplesPerFrame (targetSr frameMs : ℕ) : ℕ := targetSr * frameMs / 1000

/-- C6. With target rate 16000 Hz and 20 ms frames the framer's frame
size is `16000 * 20 / 1000 = 320` samples (640 bytes at 2 bytes per
sample); every emitted frame has exactly that size, the retained partial
tail always stays shorter than a frame, and no sample is lost or flushed
early: frames and tail together account for every sample received. -/
theorem framer_fixed_size_frames (st xs : List ℚ)
    (hst : st.length < outSamplesPerFrame 16000 20) :
    outSamplesPerFrame 16000 20 = 320 ∧
    (∀ f ∈ (framerFeed (outSamplesPerFrame 16000 20) st xs).2,
      f.length = 320 ∧ f.length * 2 = 640) ∧
    (framerFeed (outSamplesPerFrame 16000 20) st xs).1.length
      < outSamplesPerFrame 16000 20 ∧
    (framerFeed (outSamplesPerFrame 16000 20) st xs).2.length * 320
        + (framerFeed (outSamplesPerFrame 16000 20) st xs).1.length
      = st.length + xs.length := by
  have h320 : outSamplesPerFrame 16000 20 = 320 := by norm_num [outSamplesPerFrame]
  have hN : 0 < outSamplesPerFrame 16000 20 := by rw [h320]; norm_num
  obtain ⟨h1, h2, h3⟩ := framerFeed_frames (outSamplesPerFrame 16000 20) hN xs st hst
  refine ⟨h320, ?_, h2, ?_⟩
  · intro f hf
    have hfl := h1 f hf
    rw [h320] at hfl
    exact ⟨hfl, by omega⟩
  · rw [h320] at h3
    exact h3

/-- Witness for C6: a framer holding 319 samples receives one more. -/
theorem framer_fixed_size_frames_witness :
    outSamplesPerFrame 16000 20 = 320 ∧
    (∀ f ∈ (framerFeed (outSamplesPerFrame 16000 20)
        (List.replicate 319 0) [0]).2, f.length = 320 ∧ f.length * 2 = 640) ∧
    (framerFeed (outSamplesPerFrame 16000 20) (List.replicate 319 0) [0]).1.length
      < outSamplesPerFrame 16000 20 ∧
    (framerFeed (outSamplesPerFrame 16000 20)
        (List.replicate 319 0) [0]).2.length * 320
        + (framerFeed (outSamplesPerFrame 16000 20)
            (List.replicate 319 0) [0]).1.length
      = (List.replicate 319 (0 : ℚ)).length + ([0] : List ℚ).length :=
  framer_fixed_size_frames (List.replicate 319 0) [0]
    (by rw [List.length_replicate]; norm_num [outSamplesPerFrame])

end Downsampler
